import Mathlib

/-!
Verification of the Chess-AI search/evaluation/move-ordering core.

The repository's core (chess_engine.py, evaluation.py, utils.py) is built on
the python-chess library, which the specification treats as an external
"Chess Rules Engine" collaborator.  We therefore embed the core shallowly,
parameterised over an abstract interface `Rules B M` giving the collaborator's
queries exactly as the core calls them (turn, legal moves, push, pop, piece
lookup, terminal-state predicates, capture test, move accessors).

Python floats are modelled as rationals; the float infinities used as the
initial alpha/beta window are modelled by `WithBot (WithTop Rat)`.
-/

attribute [local semireducible] Rat.add Rat.mul Rat.inv Rat.sub

namespace ChessAI

/-- The six chess piece kinds (python-chess PAWN..KING). -/
inductive PieceType where
  | pawn | knight | bishop | rook | queen | king
deriving DecidableEq, Repr

/-- A piece: kind together with colour.  `color = true` is white,
matching python-chess where WHITE is the boolean True. -/
structure Piece where
  pieceType : PieceType
  color : Bool
deriving DecidableEq, Repr

/-- Board squares, 0 = a1 .. 63 = h8 as in python-chess. -/
abbrev Square := Fin 64

/-- The Chess Rules Engine collaborator interface: exactly the queries the
core's three modules make on a python-chess `Board` (plus the accessors of a
python-chess `Move`).  `B` is the opaque board handle, `M` the move type. -/
structure Rules (B M : Type) where
  turn : B → Bool
  setTurn : B → Bool → B
  legalMoves : B → List M
  push : B → M → B
  pop : B → B
  pieceAt : B → Square → Option Piece
  isCheckmate : B → Bool
  isStalemate : B → Bool
  isInsufficientMaterial : B → Bool
  isSeventyfiveMoves : B → Bool
  isFivefoldRepetition : B → Bool
  isCheck : B → Bool
  isCapture : B → M → Bool
  fromSq : M → Square
  toSq : M → Square
  promotion : M → Option PieceType

/-- python-chess `Board.is_game_over()` (with default claim_draw=False):
checkmate, stalemate, insufficient material, seventyfive-move rule or
fivefold repetition.  Modelled from the collaborator's documented behaviour,
since the engine calls this single combined query. -/
def Rules.isGameOver {B M : Type} (R : Rules B M) (bd : B) : Bool :=
  R.isCheckmate bd || R.isStalemate bd || R.isInsufficientMaterial bd ||
  R.isSeventyfiveMoves bd || R.isFivefoldRepetition bd

/-! ## evaluation.py -/

/-- Piece values (evaluation.py PIECE_VALUES). -/
def PIECE_VALUES : PieceType → Int
  | .pawn => 100
  | .knight => 320
  | .bishop => 330
  | .rook => 500
  | .queen => 900
  | .king => 20000

def PAWN_TABLE : List Int :=
  [0,  0,  0,  0,  0,  0,  0,  0,
   50, 50, 50, 50, 50, 50, 50, 50,
   10, 10, 20, 30, 30, 20, 10, 10,
   5,  5, 10, 25, 25, 10,  5,  5,
   0,  0,  0, 20, 20,  0,  0,  0,
   5, -5,-10,  0,  0,-10, -5,  5,
   5, 10, 10,-20,-20, 10, 10,  5,
   0,  0,  0,  0,  0,  0,  0,  0]

def KNIGHT_TABLE : List Int :=
  [-50,-40,-30,-30,-30,-30,-40,-50,
   -40,-20,  0,  0,  0,  0,-20,-40,
   -30,  0, 10, 15, 15, 10,  0,-30,
   -30,  5, 15, 20, 20, 15,  5,-30,
   -30,  0, 15, 20, 20, 15,  0,-30,
   -30,  5, 10, 15, 15, 10,  5,-30,
   -40,-20,  0,  5,  5,  0,-20,-40,
   -50,-40,-30,-30,-30,-30,-40,-50]

def BISHOP_TABLE : List Int :=
  [-20,-10,-10,-10,-10,-10,-10,-20,
   -10,  0,  0,  0,  0,  0,  0,-10,
   -10,  0,  5, 10, 10,  5,  0,-10,
   -10,  5,  5, 10, 10,  5,  5,-10,
   -10,  0, 10, 10, 10, 10,  0,-10,
   -10, 10, 10, 10, 10, 10, 10,-10,
   -10,  5,  0,  0,  0,  0,  5,-10,
   -20,-10,-10,-10,-10,-10,-10,-20]

def ROOK_TABLE : List Int :=
  [0,  0,  0,  0,  0,  0,  0,  0,
   5, 10, 10, 10, 10, 10, 10,  5,
   -5,  0,  0,  0,  0,  0,  0, -5,
   -5,  0,  0,  0,  0,  0,  0, -5,
   -5,  0,  0,  0,  0,  0,  0, -5,
   -5,  0,  0,  0,  0,  0,  0, -5,
   -5,  0,  0,  0,  0,  0,  0, -5,
   0,  0,  0,  5,  5,  0,  0,  0]

def QUEEN_TABLE : List Int :=
  [-20,-10,-10, -5, -5,-10,-10,-20,
   -10,  0,  0,  0,  0,  0,  0,-10,
   -10,  0,  5,  5,  5,  5,  0,-10,
   -5,  0,  5,  5,  5,  5,  0, -5,
   0,  0,  5,  5,  5,  5,  0, -5,
   -10,  5,  5,  5,  5,  5,  0,-10,
   -10,  0,  5,  0,  0,  0,  0,-10,
   -20,-10,-10, -5, -5,-10,-10,-20]

def KING_MIDDLE_GAME_TABLE : List Int :=
  [-30,-40,-40,-50,-50,-40,-40,-30,
   -30,-40,-40,-50,-50,-40,-40,-30,
   -30,-40,-40,-50,-50,-40,-40,-30,
   -30,-40,-40,-50,-50,-40,-40,-30,
   -20,-30,-30,-40,-40,-30,-30,-20,
   -10,-20,-20,-20,-20,-20,-20,-10,
   20, 20,  0,  0,  0,  0, 20, 20,
   20, 30, 10,  0,  0, 10, 30, 20]

def KING_END_GAME_TABLE : List Int :=
  [-50,-40,-30,-20,-20,-30,-40,-50,
   -30,-20,-10,  0,  0,-10,-20,-30,
   -30,-10, 20, 30, 30, 20,-10,-30,
   -30,-10, 30, 40, 40, 30,-10,-30,
   -30,-10, 30, 40, 40, 30,-10,-30,
   -30,-10, 20, 30, 30, 20,-10,-30,
   -30,-30,  0,  0,  0,  0,-30,-30,
   -50,-30,-30,-30,-30,-30,-30,-50]

/-- evaluation.py CHECKMATE_SCORE. -/
def CHECKMATE_SCORE : Rat := 100000

/-- evaluation.py DRAW_SCORE. -/
def DRAW_SCORE : Rat := 0

/-- python-chess `chess.square_mirror`: flip the square vertically
(file preserved, rank reflected). -/
def square_mirror (s : Square) : Square :=
  ⟨s.val % 8 + 8 * (7 - s.val / 8), by have h := s.isLt; omega⟩

/-- evaluation.py `get_piece_square_value`. -/
def get_piece_square_value (piece : Piece) (square : Square) (endgame : Bool) : Int :=
  let sq : Square := if piece.color = false then square_mirror square else square
  match piece.pieceType with
  | .pawn => PAWN_TABLE.getD sq.val 0
  | .knight => KNIGHT_TABLE.getD sq.val 0
  | .bishop => BISHOP_TABLE.getD sq.val 0
  | .rook => ROOK_TABLE.getD sq.val 0
  | .queen => QUEEN_TABLE.getD sq.val 0
  | .king => if endgame then KING_END_GAME_TABLE.getD sq.val 0
             else KING_MIDDLE_GAME_TABLE.getD sq.val 0

/-- evaluation.py `count_material`, read off for one colour
(the Python function returns the dictionary for both). -/
def count_material {B M : Type} (R : Rules B M) (bd : B) (c : Bool) : Int :=
  ((List.finRange 64).map (fun s =>
    match R.pieceAt bd s with
    | some p => if p.color = c then PIECE_VALUES p.pieceType else 0
    | none => 0)).sum

/-- Number of squares of `bd` holding exactly the piece `⟨ty, c⟩`
(python-chess `len(board.pieces(ty, c))`). -/
def countPieceSq {B M : Type} (R : Rules B M) (bd : B) (ty : PieceType) (c : Bool) : Nat :=
  (List.finRange 64).countP (fun s => decide (R.pieceAt bd s = some ⟨ty, c⟩))

/-- evaluation.py `is_endgame`. -/
def is_endgame {B M : Type} (R : Rules B M) (bd : B) : Bool :=
  let queens := countPieceSq R bd .queen true + countPieceSq R bd .queen false
  let minors := countPieceSq R bd .knight true + countPieceSq R bd .bishop true +
                countPieceSq R bd .knight false + countPieceSq R bd .bishop false
  queens == 0 || (queens == 2 && minors <= 2)

/-- The material term of evaluation.py `evaluate_board`:
white material minus black material. -/
def material_score {B M : Type} (R : Rules B M) (bd : B) : Int :=
  count_material R bd true - count_material R bd false

/-- The positional term of evaluation.py `evaluate_board`. -/
def positional_score {B M : Type} (R : Rules B M) (bd : B) : Int :=
  ((List.finRange 64).map (fun s =>
    match R.pieceAt bd s with
    | some p =>
        if p.color = true then get_piece_square_value p s (is_endgame R bd)
        else -(get_piece_square_value p s (is_endgame R bd))
    | none => 0)).sum

/-- The mobility term of evaluation.py `evaluate_board`: legal-move count of
the side to move minus the count after toggling the side-to-move flag,
oriented positively for white. -/
def mobility_score {B M : Type} (R : Rules B M) (bd : B) : Int :=
  if R.turn bd then
    (R.legalMoves bd).length - (R.legalMoves (R.setTurn bd false)).length
  else
    ((R.legalMoves (R.setTurn bd true)).length : Int) - (R.legalMoves bd).length

/-- The non-terminal branch of evaluation.py `evaluate_board`:
material + positional * 0.1 + mobility * 2. -/
def heuristicScore {B M : Type} (R : Rules B M) (bd : B) : Rat :=
  (material_score R bd : Rat) + (positional_score R bd : Rat) * (1/10) +
    (mobility_score R bd : Rat) * 2

/-- evaluation.py `evaluate_board`. -/
def evaluate_board {B M : Type} (R : Rules B M) (bd : B) : Rat :=
  if R.isCheckmate bd then
    (if R.turn bd then -CHECKMATE_SCORE else CHECKMATE_SCORE)
  else if R.isStalemate bd || R.isInsufficientMaterial bd then DRAW_SCORE
  else heuristicScore R bd

/-! ## utils.py -/

/-- utils.py `get_piece_value`. -/
def get_piece_value : PieceType → Int
  | .pawn => 1
  | .knight => 3
  | .bishop => 3
  | .rook => 5
  | .queen => 9
  | .king => 100

/-- The capture component of utils.py `move_priority`: MVV-LVA bonus for
captures, guarded by both the victim square and the attacker square being
occupied (Python tests `if victim_piece and attacker_piece`). -/
def captureBonus {B M : Type} (R : Rules B M) (bd : B) (m : M) : Int :=
  if R.isCapture bd m then
    match R.pieceAt bd (R.toSq m), R.pieceAt bd (R.fromSq m) with
    | some victim, some attacker =>
        10 * get_piece_value victim.pieceType - get_piece_value attacker.pieceType
    | _, _ => 0
  else 0

/-- The check component of utils.py `move_priority`: +900 when the pushed
move gives check. -/
def checkBonus {B M : Type} (R : Rules B M) (bd : B) (m : M) : Int :=
  if R.isCheck (R.push bd m) then 900 else 0

/-- The promotion component of utils.py `move_priority`. -/
def promoBonus {B M : Type} (R : Rules B M) (m : M) : Int :=
  if (R.promotion m).isSome then 800 else 0

/-- The centre-control component of utils.py `move_priority`. -/
def centerBonus {B M : Type} (R : Rules B M) (m : M) : Int :=
  let f := (R.toSq m).val % 8
  let r := (R.toSq m).val / 8
  if 2 ≤ f ∧ f ≤ 5 ∧ 2 ≤ r ∧ r ≤ 5 then 50 else 0

/-- utils.py `move_priority` (the pure reading: each bonus computed on the
pre-call board, the transient push/pop pair being cancelled by the
collaborator's stack discipline). -/
def move_priority {B M : Type} (R : Rules B M) (bd : B) (m : M) : Int :=
  captureBonus R bd m + checkBonus R bd m + promoBonus R m + centerBonus R m

/-- utils.py `get_ordered_moves`: legal moves, stably sorted by descending
priority (Python list.sort(key=move_priority, reverse=True); a stable sort
is uniquely determined by the key order, so insertion sort models it
exactly). -/
def get_ordered_moves {B M : Type} (R : Rules B M) (bd : B) : List M :=
  (R.legalMoves bd).insertionSort
    (fun m1 m2 => move_priority R bd m2 ≤ move_priority R bd m1)

/-! ## chess_engine.py -/

/-- Scores as seen by the search: rationals extended with the two float
infinities `-math.inf` (⊥) and `math.inf` (⊤) used for the initial
alpha/beta window and the running best values. -/
abbrev Score := WithBot (WithTop Rat)

/-- A finite score (an actual evaluation result) viewed as a `Score`. -/
def finScore (q : Rat) : Score := ((q : WithTop Rat) : Score)

/-- Result of one `minimax` call: the returned (score, move) pair together
with the amounts added to the engine's `nodes_evaluated` and
`pruning_count` counters by that call's whole subtree. -/
structure SR (M : Type) where
  score : Score
  move : Option M
  nodes : Nat
  prunes : Nat
deriving Repr

/-- The maximizing-player loop of `ChessEngine.minimax` (chess_engine.py
lines 53-73): iterate over the ordered moves, recursing via `f` on the
pushed board with the current alpha; update best score/move on strict
improvement, raise alpha, and break (counting one prune) when beta <= alpha.
State: remaining moves, board, max_eval, best_move, alpha, node and prune
accumulators. -/
def maxLoop {B M : Type} (R : Rules B M) (f : B → Score → SR M) (β : Score) :
    List M → B → Score → Option M → Score → Nat → Nat → SR M
  | [], _, best, bm, _, n, k => ⟨best, bm, n, k⟩
  | m :: ms, bd, best, bm, α, n, k =>
    let r := f (R.push bd m) α
    let best2 := if best < r.score then r.score else best
    let bm2 := if best < r.score then some m else bm
    let α2 := max α r.score
    if β ≤ α2 then ⟨best2, bm2, n + r.nodes, k + r.prunes + 1⟩
    else maxLoop R f β ms bd best2 bm2 α2 (n + r.nodes) (k + r.prunes)

/-- The minimizing-player loop of `ChessEngine.minimax` (chess_engine.py
lines 75-94), dual to `maxLoop`: `f` receives the pushed board and the
current beta; break when alpha >= beta. -/
def minLoop {B M : Type} (R : Rules B M) (f : B → Score → SR M) (α : Score) :
    List M → B → Score → Option M → Score → Nat → Nat → SR M
  | [], _, best, bm, _, n, k => ⟨best, bm, n, k⟩
  | m :: ms, bd, best, bm, β, n, k =>
    let r := f (R.push bd m) β
    let best2 := if r.score < best then r.score else best
    let bm2 := if r.score < best then some m else bm
    let β2 := min β r.score
    if β2 ≤ α then ⟨best2, bm2, n + r.nodes, k + r.prunes + 1⟩
    else minLoop R f α ms bd best2 bm2 β2 (n + r.nodes) (k + r.prunes)

/-- `ChessEngine.minimax`: depth-limited minimax with alpha-beta pruning.
Terminal when the remaining depth is 0 or the rules engine reports game
over; otherwise loops over `get_ordered_moves` with the matching polarity.
Every call contributes 1 to `nodes`. -/
def minimax {B M : Type} (R : Rules B M) : Nat → B → Score → Score → Bool → SR M
  | 0, bd, _, _, _ => ⟨finScore (evaluate_board R bd), none, 1, 0⟩
  | d+1, bd, α, β, maxP =>
    if R.isGameOver bd then ⟨finScore (evaluate_board R bd), none, 1, 0⟩
    else if maxP then
      let r := maxLoop R (fun b2 a2 => minimax R d b2 a2 β false) β
        (get_ordered_moves R bd) bd ⊥ none α 0 0
      ⟨r.score, r.move, r.nodes + 1, r.prunes⟩
    else
      let r := minLoop R (fun b2 b3 => minimax R d b2 α b3 true) α
        (get_ordered_moves R bd) bd ⊤ none β 0 0
      ⟨r.score, r.move, r.nodes + 1, r.prunes⟩

/-- Full unpruned minimax over the identical tree and move ordering.
Modelled from the spec: the reference value against which the pruning
search is compared ("a full unpruned minimax search over the identical
move-ordering"). -/
def plainMinimax {B M : Type} (R : Rules B M) : Nat → B → Bool → Score
  | 0, bd, _ => finScore (evaluate_board R bd)
  | d+1, bd, maxP =>
    if R.isGameOver bd then finScore (evaluate_board R bd)
    else if maxP then
      ((get_ordered_moves R bd).map
        (fun m => plainMinimax R d (R.push bd m) false)).foldl max ⊥
    else
      ((get_ordered_moves R bd).map
        (fun m => plainMinimax R d (R.push bd m) true)).foldl min ⊤

/-- The Difficulty Controller's state (`ChessEngine.__init__`):
search depth plus the two statistics counters. -/
structure ChessEngine where
  depth : Int
  nodes_evaluated : Nat
  pruning_count : Nat
deriving DecidableEq, Repr

/-- `ChessEngine.__init__(depth=3)`: stores the given depth unclamped and
zeroes the statistics. -/
def ChessEngine.init (depth : Int := 3) : ChessEngine :=
  ⟨depth, 0, 0⟩

/-- `ChessEngine.set_depth`: clamp the new depth into [1, 10] and store it. -/
def ChessEngine.set_depth (e : ChessEngine) (depth : Int) : ChessEngine :=
  { e with depth := max 1 (min depth 10) }

/-- `ChessEngine.get_best_move`: reset the statistics, determine the
maximizing flag from the side to move, run `minimax` with the full window
at the stored depth, and return the move together with the engine state
holding the updated statistics. -/
def get_best_move {B M : Type} (R : Rules B M) (e : ChessEngine) (bd : B) :
    Option M × ChessEngine :=
  let maximizing := R.turn bd
  let r := minimax R e.depth.toNat bd ⊥ ⊤ maximizing
  (r.move, { e with nodes_evaluated := r.nodes, pruning_count := r.prunes })

/-! ## A concrete Rules-Engine instance

A finite game-tree model of the collaborator, used to evaluate the
definitions at concrete inputs: each node records the answers the rules
engine would give for that position, and its child positions.  A board
handle is a current node plus the stack of predecessor nodes, so that
`push`/`pop` have the collaborator's stack discipline. -/

/-- A concrete move: an index into the current node's child list plus the
data a python-chess `Move` carries. -/
structure CMove where
  idx : Nat
  src : Square
  dst : Square
  promo : Option PieceType
deriving DecidableEq, Repr

/-- The recorded rules-engine answers at one position. -/
structure Info where
  turn : Bool
  checkmate : Bool
  stalemate : Bool
  insufficient : Bool
  seventyfive : Bool
  fivefold : Bool
  check : Bool
  movesW : List CMove
  movesB : List CMove
  captures : List Nat
  squares : List (Nat × Piece)

/-- A concrete game tree of positions. -/
inductive GT where
  | mk (info : Info) (kids : List GT)

def GT.info : GT → Info
  | .mk i _ => i

def GT.kids : GT → List GT
  | .mk _ k => k

/-- Legal moves of the side to move at a node. -/
def activeMoves (t : GT) : List CMove :=
  if t.info.turn then t.info.movesW else t.info.movesB

def noInfo : Info :=
  ⟨true, false, false, false, false, false, false, [], [], [], []⟩

/-- A default terminal node (no moves, hence reported stalemate below). -/
def GT.leaf : GT := .mk noInfo []

/-- A concrete board handle: current node plus predecessor stack. -/
abbrev CB := GT × List GT

/-- The concrete rules engine over `GT` boards.  A position with no legal
move for the side to move is reported stalemate, mirroring that a real
position without legal moves is always checkmate or stalemate. -/
def cRules : Rules CB CMove where
  turn := fun b => b.1.info.turn
  setTurn := fun b c => (.mk { b.1.info with turn := c } b.1.kids, b.2)
  legalMoves := fun b => activeMoves b.1
  push := fun b m => (b.1.kids.getD m.idx GT.leaf, b.1 :: b.2)
  pop := fun b => match b.2 with
    | [] => b
    | x :: xs => (x, xs)
  pieceAt := fun b s => b.1.info.squares.lookup s.val
  isCheckmate := fun b => b.1.info.checkmate
  isStalemate := fun b => b.1.info.stalemate || (activeMoves b.1).isEmpty
  isInsufficientMaterial := fun b => b.1.info.insufficient
  isSeventyfiveMoves := fun b => b.1.info.seventyfive
  isFivefoldRepetition := fun b => b.1.info.fivefold
  isCheck := fun b => b.1.info.check
  isCapture := fun b m => b.1.info.captures.contains m.idx
  fromSq := fun m => m.src
  toSq := fun m => m.dst
  promotion := fun m => m.promo

/-- The collaborator's stack discipline: popping a pushed move restores the
pre-push board. -/
theorem cRules_pop_push : ∀ (b : CB) (m : CMove), cRules.pop (cRules.push b m) = b := by
  intro b m
  rfl

/-- Reassigning the side to move overwrites the previous assignment. -/
theorem cRules_setTurn_setTurn :
    ∀ (b : CB) (c1 c2 : Bool), cRules.setTurn (cRules.setTurn b c1) c2 = cRules.setTurn b c2 := by
  intro b c1 c2
  rfl

/-- Setting the side to move to its current value changes nothing. -/
theorem cRules_setTurn_self : ∀ b : CB, cRules.setTurn b (cRules.turn b) = b := by
  intro b
  obtain ⟨⟨i, k⟩, s⟩ := b
  rfl

/-- In the concrete instance, a position without legal moves is game over
(it is reported stalemate), as in real chess. -/
theorem cRules_no_moves_game_over :
    ∀ b : CB, cRules.legalMoves b = [] → cRules.isGameOver b = true := by
  intro b h
  simp only [cRules, Rules.isGameOver, h, List.isEmpty_nil, Bool.or_true, Bool.true_or,
    Bool.or_eq_true]
  simp [cRules] at h
  simp [h]

/-- Shorthand for a featureless concrete move with child index `i`. -/
def mv (i : Nat) : CMove := ⟨i, 0, 0, none⟩

/-- A checkmated position with black to move. -/
def gCheckmate : GT :=
  .mk ⟨false, true, false, false, false, false, true, [], [], [], []⟩ []

def bCheckmate : CB := (gCheckmate, [])

/-- A stalemate position with white to move. -/
def gStalemate : GT :=
  .mk ⟨true, false, true, false, false, false, false, [], [], [], []⟩ []

def bStalemate : CB := (gStalemate, [])

/-- A position with exactly one queen and no minor pieces. -/
def gOneQueen : GT :=
  .mk ⟨true, false, false, false, false, false, false, [mv 0], [], [],
       [(0, ⟨.queen, true⟩)]⟩ [GT.leaf]

def bOneQueen : CB := (gOneQueen, [])

/-- An en-passant-shaped position: white pawn e5 (square 36), black pawn
d5 (square 35); the move e5xd6 (to square 43) is a capture whose
destination square is empty, as python-chess reports for en passant. -/
def gEnPassant : GT :=
  .mk ⟨true, false, false, false, false, false, false,
       [⟨0, 36, 43, none⟩], [], [0],
       [(36, ⟨.pawn, true⟩), (35, ⟨.pawn, false⟩)]⟩ [GT.leaf]

def bEnPassant : CB := (gEnPassant, [])

def mEnPassant : CMove := ⟨0, 36, 43, none⟩

/-- An ordinary capture: white knight on b1 (square 1) takes a black queen
on c3 (square 18); plus a second, non-capture move. -/
def gCapture : GT :=
  .mk ⟨true, false, false, false, false, false, false,
       [⟨0, 1, 18, none⟩, mv 1], [], [0],
       [(1, ⟨.knight, true⟩), (18, ⟨.queen, false⟩)]⟩ [GT.leaf, GT.leaf]

def bCapture : CB := (gCapture, [])

def mCapture : CMove := ⟨0, 1, 18, none⟩

/-- A position drawn by fivefold repetition (search-terminal but scored by
the full heuristic): one white rook, one legal white move. -/
def gFivefold : GT :=
  .mk ⟨true, false, false, false, false, true, false,
       [mv 0], [], [], [(0, ⟨.rook, true⟩)]⟩ [GT.leaf]

def bFivefold : CB := (gFivefold, [])

/-- Game tree for the search witnesses and the node-count counterexample.
Static evaluations come from the mobility term alone (no pieces placed).
`gA` is a draw worth 0; `gB` starts nine children worth 2 and a tenth worth
-2, so a depth-2 search prunes only after visiting ten children, while at
depth 3 the first child's reply (worth -2) already forces the cutoff. -/
def gA : GT :=
  .mk ⟨false, false, true, false, false, false, false, [], [], [], []⟩ []

/-- Static evaluation -2: one white move against two black moves. -/
def gC : GT :=
  .mk ⟨false, false, false, false, false, false, false,
       [mv 0], [mv 0, mv 1], [], []⟩ []

/-- Static evaluation 2; its only continuation is `gC`. -/
def gK1 : GT :=
  .mk ⟨true, false, false, false, false, false, false,
       [mv 0], [], [], []⟩ [gC]

/-- Static evaluation -2 (one white move against two black moves). -/
def gK10 : GT :=
  .mk ⟨true, false, false, false, false, false, false,
       [mv 0], [mv 0, mv 1], [], []⟩ [GT.leaf]

def gB : GT :=
  .mk ⟨false, false, false, false, false, false, false,
       [], [mv 0, mv 1, mv 2, mv 3, mv 4, mv 5, mv 6, mv 7, mv 8, mv 9], [], []⟩
      [gK1, gK1, gK1, gK1, gK1, gK1, gK1, gK1, gK1, gK10]

def gRoot : GT :=
  .mk ⟨true, false, false, false, false, false, false,
       [mv 0, mv 1], [], [], []⟩ [gA, gB]

def bRoot : CB := (gRoot, [])

/-! ## State-passing versions of the orderer and evaluator

utils.py `move_priority` mutates the shared board with a push/pop pair to
test for check, and evaluation.py `evaluate_board` toggles the side-to-move
flag to count opponent mobility.  These versions thread the board state
explicitly so the restoration property (claim C8) can be stated. -/

/-- `move_priority` with the transient push/pop made explicit: returns the
priority together with the board as left behind. -/
def movePrioritySt {B M : Type} (R : Rules B M) (bd : B) (m : M) : Int × B :=
  let p1 := captureBonus R bd m
  let b1 := R.push bd m
  let p2 : Int := if R.isCheck b1 then 900 else 0
  let b2 := R.pop b1
  (p1 + p2 + promoBonus R m + centerBonus R m, b2)

/-- Map a state-threading function over a list, threading the board through
the calls in list order (as Python's list.sort computes its keys). -/
def threadMap {B α γ : Type} (f : B → α → γ × B) : B → List α → List γ × B
  | b, [] => ([], b)
  | b, x :: xs =>
    let r := f b x
    let rest := threadMap f r.2 xs
    (r.1 :: rest.1, rest.2)

/-- `get_ordered_moves` with the board threaded through the per-move key
computations (decorate, stable-sort descending, undecorate). -/
def getOrderedMovesSt {B M : Type} (R : Rules B M) (bd : B) : List M × B :=
  let ms := R.legalMoves bd
  let dec := threadMap (fun b m => movePrioritySt R b m) bd ms
  (((ms.zip dec.1).insertionSort (fun x y => y.2 ≤ x.2)).map Prod.fst, dec.2)

/-- `evaluate_board` with the side-to-move toggles of the mobility term made
explicit: returns the score together with the board as left behind. -/
def evaluateSt {B M : Type} (R : Rules B M) (bd : B) : Rat × B :=
  if R.isCheckmate bd then
    ((if R.turn bd then -CHECKMATE_SCORE else CHECKMATE_SCORE), bd)
  else if R.isStalemate bd || R.isInsufficientMaterial bd then (DRAW_SCORE, bd)
  else
    let ms := material_score R bd
    let ps := positional_score R bd
    if R.turn bd then
      let m1 : Int := (R.legalMoves bd).length
      let b1 := R.setTurn bd false
      let mob := m1 - (R.legalMoves b1).length
      let b2 := R.setTurn b1 true
      ((ms : Rat) + (ps : Rat) * (1/10) + (mob : Rat) * 2, b2)
    else
      let m1 : Int := (R.legalMoves bd).length
      let b1 := R.setTurn bd true
      let mob := ((R.legalMoves b1).length : Int) - m1
      let b2 := R.setTurn b1 false
      ((ms : Rat) + (ps : Rat) * (1/10) + (mob : Rat) * 2, b2)

/-- If each step of a threaded map leaves the board unchanged, so does the
whole map. -/
theorem threadMap_snd_id {B α γ : Type} (f : B → α → γ × B)
    (hf : ∀ b x, (f b x).2 = b) : ∀ (b : B) (l : List α), (threadMap f b l).2 = b := by
  intro b l
  induction l generalizing b with
  | nil => rfl
  | cons x xs ih => simp [threadMap, hf, ih]

/-! ## Alpha-beta correctness machinery

The windowed search is related to the unpruned reference by the classic
fail-soft invariant: a result at or below alpha is an upper bound on the
true value, a result inside the window is exact, and a result at or above
beta is a lower bound. -/

/-- The fail-soft alpha-beta invariant for result `r` against true value
`v` in window `(α, β)`. -/
def KM3 (r v α β : Score) : Prop :=
  (r ≤ α → v ≤ r) ∧ (α < r → r < β → r = v) ∧ (β ≤ r → r ≤ v)

theorem if_lt_eq_max {α : Type} [LinearOrder α] (e v : α) :
    (if e < v then v else e) = max e v := by
  rcases le_or_lt v e with h | h
  · simp [not_lt.mpr h, max_eq_left h]
  · simp [h, max_eq_right h.le]

theorem if_lt_eq_min {α : Type} [LinearOrder α] (e v : α) :
    (if v < e then v else e) = min e v := by
  rcases le_or_lt e v with h | h
  · simp [not_lt.mpr h, min_eq_left h]
  · simp [h, min_eq_right h.le]

theorem foldlMax_comm {α : Type} [LinearOrder α] :
    ∀ (l : List α) (e x : α), l.foldl max (max e x) = max x (l.foldl max e) := by
  intro l
  induction l with
  | nil => intro e x; simp [max_comm]
  | cons y l ih =>
      intro e x
      simp only [List.foldl_cons]
      rw [show max (max e x) y = max (max e y) x by
            rw [max_assoc, max_comm x y, ← max_assoc],
          ih]

theorem le_foldlMax {α : Type} [LinearOrder α] :
    ∀ (l : List α) (e : α), e ≤ l.foldl max e := by
  intro l
  induction l with
  | nil => intro e; simp
  | cons y l ih => intro e; exact le_trans (le_max_left e y) (ih (max e y))

theorem foldlMin_comm {α : Type} [LinearOrder α] :
    ∀ (l : List α) (e x : α), l.foldl min (min e x) = min x (l.foldl min e) := by
  intro l
  induction l with
  | nil => intro e x; simp [min_comm]
  | cons y l ih =>
      intro e x
      simp only [List.foldl_cons]
      rw [show min (min e x) y = min (min e y) x by
            rw [min_assoc, min_comm x y, ← min_assoc],
          ih]

theorem foldlMin_le {α : Type} [LinearOrder α] :
    ∀ (l : List α) (e : α), l.foldl min e ≤ e := by
  intro l
  induction l with
  | nil => intro e; simp
  | cons y l ih => intro e; exact le_trans (ih (min e y)) (min_le_left e y)

/-- One step of `maxLoop`, with the strict-improvement update rewritten as
a max. -/
theorem maxLoop_cons {B M : Type} (R : Rules B M) (f : B → Score → SR M) (β : Score)
    (m : M) (ms : List M) (bd : B) (e : Score) (bm : Option M) (α : Score) (n k : Nat) :
    maxLoop R f β (m :: ms) bd e bm α n k =
      (if β ≤ max α (f (R.push bd m) α).score then
        ⟨max e (f (R.push bd m) α).score,
         if e < (f (R.push bd m) α).score then some m else bm,
         n + (f (R.push bd m) α).nodes, k + (f (R.push bd m) α).prunes + 1⟩
      else maxLoop R f β ms bd (max e (f (R.push bd m) α).score)
        (if e < (f (R.push bd m) α).score then some m else bm)
        (max α (f (R.push bd m) α).score)
        (n + (f (R.push bd m) α).nodes) (k + (f (R.push bd m) α).prunes)) := by
  simp only [maxLoop, if_lt_eq_max]

/-- One step of `minLoop`, with the strict-improvement update rewritten as
a min. -/
theorem minLoop_cons {B M : Type} (R : Rules B M) (f : B → Score → SR M) (α : Score)
    (m : M) (ms : List M) (bd : B) (e : Score) (bm : Option M) (β : Score) (n k : Nat) :
    minLoop R f α (m :: ms) bd e bm β n k =
      (if min β (f (R.push bd m) β).score ≤ α then
        ⟨min e (f (R.push bd m) β).score,
         if (f (R.push bd m) β).score < e then some m else bm,
         n + (f (R.push bd m) β).nodes, k + (f (R.push bd m) β).prunes + 1⟩
      else minLoop R f α ms bd (min e (f (R.push bd m) β).score)
        (if (f (R.push bd m) β).score < e then some m else bm)
        (min β (f (R.push bd m) β).score)
        (n + (f (R.push bd m) β).nodes) (k + (f (R.push bd m) β).prunes)) := by
  simp only [minLoop, if_lt_eq_min]

/-- The running best score of `maxLoop` never decreases. -/
theorem maxLoop_score_init_le {B M : Type} (R : Rules B M) (f : B → Score → SR M)
    (β : Score) :
    ∀ (ms : List M) (bd : B) (e : Score) (bm : Option M) (α : Score) (n k : Nat),
      e ≤ (maxLoop R f β ms bd e bm α n k).score := by
  intro ms
  induction ms with
  | nil => intro bd e bm α n k; exact le_refl e
  | cons m ms ih =>
      intro bd e bm α n k
      rw [maxLoop_cons]
      split
      · exact le_max_left _ _
      · exact le_trans (le_max_left _ _) (ih bd _ _ _ _ _)

/-- The running best score of `minLoop` never increases. -/
theorem minLoop_score_le_init {B M : Type} (R : Rules B M) (f : B → Score → SR M)
    (α : Score) :
    ∀ (ms : List M) (bd : B) (e : Score) (bm : Option M) (β : Score) (n k : Nat),
      (minLoop R f α ms bd e bm β n k).score ≤ e := by
  intro ms
  induction ms with
  | nil => intro bd e bm β n k; exact le_refl e
  | cons m ms ih =>
      intro bd e bm β n k
      rw [minLoop_cons]
      split
      · exact min_le_left _ _
      · exact le_trans (ih bd _ _ _ _ _) (min_le_left _ _)

/-- Fail-soft invariant for the maximizing loop: provided every child call
satisfies the invariant for its window, the loop result satisfies it
against the unpruned maximum of the children's true values `cv`,
folded over the initial best `e`.  Requires the loop invariant `e ≤ α`. -/
theorem maxLoop_km {B M : Type} (R : Rules B M) (f : B → Score → SR M) (β : Score)
    (cv : B → Score)
    (hf : ∀ (b2 : B) (α2 : Score), α2 < β → KM3 (f b2 α2).score (cv b2) α2 β) :
    ∀ (ms : List M) (bd : B) (e : Score) (bm : Option M) (α : Score) (n k : Nat),
      α < β → e ≤ α →
      KM3 (maxLoop R f β ms bd e bm α n k).score
          ((ms.map (fun m2 => cv (R.push bd m2))).foldl max e) α β := by
  intro ms
  induction ms with
  | nil =>
      intro bd e bm α n k hαβ heα
      simp only [maxLoop, List.map_nil, List.foldl_nil]
      exact ⟨fun _ => le_refl e, fun _ _ => rfl, fun _ => le_refl e⟩
  | cons m ms ih =>
      intro bd e bm α n k hαβ heα
      rw [maxLoop_cons]
      simp only [List.map_cons, List.foldl_cons]
      obtain ⟨hk1, hk2, hk3⟩ := hf (R.push bd m) α hαβ
      by_cases hcut : β ≤ max α (f (R.push bd m) α).score
      · rw [if_pos hcut]
        have hβr : β ≤ (f (R.push bd m) α).score :=
          (le_max_iff.mp hcut).resolve_left (not_le.mpr hαβ)
        have hαr : α < (f (R.push bd m) α).score := lt_of_lt_of_le hαβ hβr
        have her : max e (f (R.push bd m) α).score = (f (R.push bd m) α).score :=
          max_eq_right (le_trans heα hαr.le)
        refine ⟨?_, ?_, ?_⟩
        · intro h
          rw [show (SR.mk (max e (f (R.push bd m) α).score) _ _ _).score
              = max e (f (R.push bd m) α).score from rfl, her] at h
          exact absurd h (not_le.mpr hαr)
        · intro _ h2
          rw [show (SR.mk (max e (f (R.push bd m) α).score) _ _ _).score
              = max e (f (R.push bd m) α).score from rfl, her] at h2
          exact absurd h2 (not_lt.mpr hβr)
        · intro _
          show max e (f (R.push bd m) α).score ≤ _
          rw [her]
          exact le_trans (hk3 hβr) (le_trans (le_max_right e (cv (R.push bd m)))
            (le_foldlMax _ _))
      · rw [if_neg hcut]
        have hcont : max α (f (R.push bd m) α).score < β := not_le.mp hcut
        rcases le_or_lt (f (R.push bd m) α).score α with hra | hra
        · -- the child failed low: its true value is dominated
          have hα2 : max α (f (R.push bd m) α).score = α := max_eq_left hra
          have hvr : cv (R.push bd m) ≤ (f (R.push bd m) α).score := hk1 hra
          rw [hα2]
          have he2 : max e (f (R.push bd m) α).score ≤ α := max_le heα hra
          obtain ⟨i1, i2, i3⟩ := ih bd (max e (f (R.push bd m) α).score)
            (if e < (f (R.push bd m) α).score then some m else bm)
            α (n + (f (R.push bd m) α).nodes) (k + (f (R.push bd m) α).prunes) hαβ he2
          rw [foldlMax_comm] at i1 i2 i3
          rw [foldlMax_comm]
          refine ⟨?_, ?_, ?_⟩
          · intro h
            have hm := i1 h
            exact max_le
              (le_trans hvr (le_trans (le_max_left _ _) hm))
              (le_trans (le_max_right _ _) hm)
          · intro h1 h2
            have hS := i2 h1 h2
            have hrS : (f (R.push bd m) α).score <
                (maxLoop R f β ms bd (max e (f (R.push bd m) α).score)
                  (if e < (f (R.push bd m) α).score then some m else bm) α
                  (n + (f (R.push bd m) α).nodes)
                  (k + (f (R.push bd m) α).prunes)).score :=
              lt_of_le_of_lt hra h1
            rcases max_cases (f (R.push bd m) α).score
                ((ms.map (fun m2 => cv (R.push bd m2))).foldl max e) with
              ⟨hm, _⟩ | ⟨hm, _⟩
            · rw [hm] at hS
              exact absurd hS.symm (ne_of_lt hrS)
            · rw [hm] at hS
              rw [max_eq_right (le_of_lt (lt_of_le_of_lt hvr (hS ▸ hrS)))]
              exact hS
          · intro h
            have hm := i3 h
            have hrS : (f (R.push bd m) α).score <
                (maxLoop R f β ms bd (max e (f (R.push bd m) α).score)
                  (if e < (f (R.push bd m) α).score then some m else bm) α
                  (n + (f (R.push bd m) α).nodes)
                  (k + (f (R.push bd m) α).prunes)).score :=
              lt_of_le_of_lt hra (lt_of_lt_of_le hαβ h)
            rcases le_max_iff.mp hm with hm2 | hm2
            · exact absurd hm2 (not_le.mpr hrS)
            · exact le_trans hm2 (le_max_right _ _)
        · -- the child's result is inside the window: exact value
          have hrβ : (f (R.push bd m) α).score < β :=
            lt_of_le_of_lt (le_max_right α _) hcont
          have hveq : (f (R.push bd m) α).score = cv (R.push bd m) := hk2 hra hrβ
          have he2le : max e (f (R.push bd m) α).score ≤ max α (f (R.push bd m) α).score :=
            max_le_max heα (le_refl _)
          obtain ⟨i1, i2, i3⟩ := ih bd (max e (f (R.push bd m) α).score)
            (if e < (f (R.push bd m) α).score then some m else bm)
            (max α (f (R.push bd m) α).score)
            (n + (f (R.push bd m) α).nodes) (k + (f (R.push bd m) α).prunes) hcont he2le
          rw [← hveq]
          have hrS : (f (R.push bd m) α).score ≤
              (maxLoop R f β ms bd (max e (f (R.push bd m) α).score)
                (if e < (f (R.push bd m) α).score then some m else bm)
                (max α (f (R.push bd m) α).score)
                (n + (f (R.push bd m) α).nodes)
                (k + (f (R.push bd m) α).prunes)).score :=
            le_trans (le_max_right e _) (maxLoop_score_init_le R f β ms bd _ _ _ _ _)
          have hWr : (f (R.push bd m) α).score ≤
              (ms.map (fun m2 => cv (R.push bd m2))).foldl max
                (max e (f (R.push bd m) α).score) :=
            le_trans (le_max_right e _) (le_foldlMax _ _)
          refine ⟨?_, ?_, ?_⟩
          · intro h
            exact absurd h (not_le.mpr (lt_of_lt_of_le hra hrS))
          · intro h1 h2
            rcases lt_or_eq_of_le hrS with hlt | heq
            · exact i2 (max_lt (lt_trans hra hlt) hlt) h2
            · have hSα2 : (maxLoop R f β ms bd (max e (f (R.push bd m) α).score)
                  (if e < (f (R.push bd m) α).score then some m else bm)
                  (max α (f (R.push bd m) α).score)
                  (n + (f (R.push bd m) α).nodes)
                  (k + (f (R.push bd m) α).prunes)).score ≤
                  max α (f (R.push bd m) α).score := by
                rw [← heq]
                exact le_max_right α _
              exact le_antisymm (heq ▸ hWr) (i1 hSα2)
          · intro h
            exact i3 h

/-- Fail-soft invariant for the minimizing loop, dual to `maxLoop_km`.
Requires the loop invariant `β ≤ e`. -/
theorem minLoop_km {B M : Type} (R : Rules B M) (f : B → Score → SR M) (α : Score)
    (cv : B → Score)
    (hf : ∀ (b2 : B) (β2 : Score), α < β2 → KM3 (f b2 β2).score (cv b2) α β2) :
    ∀ (ms : List M) (bd : B) (e : Score) (bm : Option M) (β : Score) (n k : Nat),
      α < β → β ≤ e →
      KM3 (minLoop R f α ms bd e bm β n k).score
          ((ms.map (fun m2 => cv (R.push bd m2))).foldl min e) α β := by
  intro ms
  induction ms with
  | nil =>
      intro bd e bm β n k hαβ hβe
      simp only [minLoop, List.map_nil, List.foldl_nil]
      exact ⟨fun _ => le_refl e, fun _ _ => rfl, fun _ => le_refl e⟩
  | cons m ms ih =>
      intro bd e bm β n k hαβ hβe
      rw [minLoop_cons]
      simp only [List.map_cons, List.foldl_cons]
      obtain ⟨hk1, hk2, hk3⟩ := hf (R.push bd m) β hαβ
      by_cases hcut : min β (f (R.push bd m) β).score ≤ α
      · rw [if_pos hcut]
        have hrα : (f (R.push bd m) β).score ≤ α :=
          (min_le_iff.mp hcut).resolve_left (not_le.mpr hαβ)
        have hrβ : (f (R.push bd m) β).score < β := lt_of_le_of_lt hrα hαβ
        have her : min e (f (R.push bd m) β).score = (f (R.push bd m) β).score :=
          min_eq_right (le_trans hrβ.le hβe)
        have hvr : cv (R.push bd m) ≤ (f (R.push bd m) β).score := hk1 hrα
        refine ⟨?_, ?_, ?_⟩
        · intro _
          show _ ≤ min e (f (R.push bd m) β).score
          rw [her]
          exact le_trans (foldlMin_le _ _)
            (le_trans (min_le_right e (cv (R.push bd m))) hvr)
        · intro h1 _
          rw [show (SR.mk (min e (f (R.push bd m) β).score) _ _ _).score
              = min e (f (R.push bd m) β).score from rfl, her] at h1
          exact absurd h1 (not_lt.mpr hrα)
        · intro h
          rw [show (SR.mk (min e (f (R.push bd m) β).score) _ _ _).score
              = min e (f (R.push bd m) β).score from rfl, her] at h
          exact absurd h (not_le.mpr hrβ)
      · rw [if_neg hcut]
        have hcont : α < min β (f (R.push bd m) β).score := not_le.mp hcut
        rcases le_or_lt β (f (R.push bd m) β).score with hrb | hrb
        · -- the child failed high: its true value dominates
          have hβ2 : min β (f (R.push bd m) β).score = β := min_eq_left hrb
          have hvr : (f (R.push bd m) β).score ≤ cv (R.push bd m) := hk3 hrb
          rw [hβ2]
          have he2 : β ≤ min e (f (R.push bd m) β).score := le_min hβe hrb
          obtain ⟨i1, i2, i3⟩ := ih bd (min e (f (R.push bd m) β).score)
            (if (f (R.push bd m) β).score < e then some m else bm)
            β (n + (f (R.push bd m) β).nodes) (k + (f (R.push bd m) β).prunes) hαβ he2
          rw [foldlMin_comm] at i1 i2 i3
          rw [foldlMin_comm]
          refine ⟨?_, ?_, ?_⟩
          · intro h
            have hm := i1 h
            rcases min_cases (f (R.push bd m) β).score
                ((ms.map (fun m2 => cv (R.push bd m2))).foldl min e) with
              ⟨hc, _⟩ | ⟨hc, _⟩
            · rw [hc] at hm
              exact absurd (le_trans hm h) (not_le.mpr (lt_of_lt_of_le hαβ hrb))
            · rw [hc] at hm
              exact le_trans (min_le_right _ _) hm
          · intro h1 h2
            have hS := i2 h1 h2
            have hrS : (minLoop R f α ms bd (min e (f (R.push bd m) β).score)
                (if (f (R.push bd m) β).score < e then some m else bm) β
                (n + (f (R.push bd m) β).nodes)
                (k + (f (R.push bd m) β).prunes)).score <
                (f (R.push bd m) β).score :=
              lt_of_lt_of_le h2 hrb
            rcases min_cases (f (R.push bd m) β).score
                ((ms.map (fun m2 => cv (R.push bd m2))).foldl min e) with
              ⟨hc, _⟩ | ⟨hc, _⟩
            · rw [hc] at hS
              exact absurd hS.symm (ne_of_gt hrS)
            · rw [hc] at hS
              rw [min_eq_right (le_of_lt (lt_of_lt_of_le (hS ▸ hrS) hvr))]
              exact hS
          · intro h
            have hm := i3 h
            exact le_min
              (le_trans (le_trans hm (min_le_left _ _)) hvr)
              (le_trans hm (min_le_right _ _))
        · -- the child's result is inside the window: exact value
          have hra : α < (f (R.push bd m) β).score :=
            lt_of_lt_of_le hcont (min_le_right β _)
          have hveq : (f (R.push bd m) β).score = cv (R.push bd m) := hk2 hra hrb
          have he2le : min β (f (R.push bd m) β).score ≤ min e (f (R.push bd m) β).score :=
            min_le_min hβe (le_refl _)
          obtain ⟨i1, i2, i3⟩ := ih bd (min e (f (R.push bd m) β).score)
            (if (f (R.push bd m) β).score < e then some m else bm)
            (min β (f (R.push bd m) β).score)
            (n + (f (R.push bd m) β).nodes) (k + (f (R.push bd m) β).prunes) hcont he2le
          rw [← hveq]
          have hrS : (minLoop R f α ms bd (min e (f (R.push bd m) β).score)
              (if (f (R.push bd m) β).score < e then some m else bm)
              (min β (f (R.push bd m) β).score)
              (n + (f (R.push bd m) β).nodes)
              (k + (f (R.push bd m) β).prunes)).score ≤ (f (R.push bd m) β).score :=
            le_trans (minLoop_score_le_init R f α ms bd _ _ _ _ _) (min_le_right e _)
          have hWr : (ms.map (fun m2 => cv (R.push bd m2))).foldl min
              (min e (f (R.push bd m) β).score) ≤ (f (R.push bd m) β).score :=
            le_trans (foldlMin_le _ _) (min_le_right e _)
          refine ⟨?_, ?_, ?_⟩
          · intro h
            exact i1 h
          · intro h1 h2
            rcases lt_or_eq_of_le hrS with hlt | heq
            · exact i2 h1 (lt_min h2 hlt)
            · have hSβ2 : min β (f (R.push bd m) β).score ≤
                  (minLoop R f α ms bd (min e (f (R.push bd m) β).score)
                    (if (f (R.push bd m) β).score < e then some m else bm)
                    (min β (f (R.push bd m) β).score)
                    (n + (f (R.push bd m) β).nodes)
                    (k + (f (R.push bd m) β).prunes)).score := by
                rw [heq]
                exact min_le_right β _
              exact le_antisymm (i3 hSβ2) (hWr.trans_eq heq.symm)
          · intro h
            exact absurd (lt_of_le_of_lt hrS hrb) (not_lt.mpr h)

/-- The fail-soft invariant holds for every `minimax` call against the
unpruned reference value, for every window with alpha below beta. -/
theorem minimax_km {B M : Type} (R : Rules B M) :
    ∀ (d : Nat) (bd : B) (α β : Score) (maxP : Bool), α < β →
      KM3 (minimax R d bd α β maxP).score (plainMinimax R d bd maxP) α β := by
  intro d
  induction d with
  | zero =>
      intro bd α β maxP _
      exact ⟨fun _ => le_refl _, fun _ _ => rfl, fun _ => le_refl _⟩
  | succ d ih =>
      intro bd α β maxP hαβ
      by_cases hover : R.isGameOver bd = true
      · simp only [minimax, plainMinimax, hover, if_true]
        exact ⟨fun _ => le_refl _, fun _ _ => rfl, fun _ => le_refl _⟩
      · cases maxP with
        | true =>
            simp only [minimax, plainMinimax, hover, if_false, Bool.false_eq_true,
              if_true, reduceIte]
            exact maxLoop_km R _ β (fun b2 => plainMinimax R d b2 false)
              (fun b2 α2 h2 => ih b2 α2 β false h2)
              (get_ordered_moves R bd) bd ⊥ none α 0 0 hαβ bot_le
        | false =>
            simp only [minimax, plainMinimax, hover, if_false, Bool.false_eq_true,
              if_true, reduceIte]
            exact minLoop_km R _ α (fun b2 => plainMinimax R d b2 true)
              (fun b2 β2 h2 => ih b2 α β2 true h2)
              (get_ordered_moves R bd) bd ⊤ none β 0 0 hαβ le_top

/-- Best-move tracking of the maximizing loop under the full window
(beta = top), entered with alpha equal to the running best: either no move
ever strictly improved (score and move unchanged), or the returned move is
the entry at some index `i` whose true value equals the returned score
while every earlier entry's true value is strictly below it. -/
theorem maxLoop_first {B M : Type} (R : Rules B M) (f : B → Score → SR M)
    (cv : B → Score)
    (hf : ∀ (b2 : B) (α2 : Score), α2 < ⊤ → KM3 (f b2 α2).score (cv b2) α2 ⊤) :
    ∀ (ms : List M) (bd : B) (e : Score) (bm : Option M) (n k : Nat), e < ⊤ →
      ((maxLoop R f ⊤ ms bd e bm e n k).score = e ∧
       (maxLoop R f ⊤ ms bd e bm e n k).move = bm) ∨
      (∃ i, ∃ hi : i < ms.length,
        (maxLoop R f ⊤ ms bd e bm e n k).move = some (ms.get ⟨i, hi⟩) ∧
        cv (R.push bd (ms.get ⟨i, hi⟩)) = (maxLoop R f ⊤ ms bd e bm e n k).score ∧
        e < (maxLoop R f ⊤ ms bd e bm e n k).score ∧
        ∀ (j : Nat) (hj : j < ms.length), j < i →
          cv (R.push bd (ms.get ⟨j, hj⟩)) < (maxLoop R f ⊤ ms bd e bm e n k).score) := by
  intro ms
  induction ms with
  | nil =>
      intro bd e bm n k _
      exact Or.inl ⟨rfl, rfl⟩
  | cons m ms ih =>
      intro bd e bm n k he
      rw [maxLoop_cons]
      obtain ⟨hk1, hk2, hk3⟩ := hf (R.push bd m) e he
      by_cases hup : e < (f (R.push bd m) e).score
      · -- strict improvement: the move is recorded
        have he2 : max e (f (R.push bd m) e).score = (f (R.push bd m) e).score :=
          max_eq_right hup.le
        have hveq : (f (R.push bd m) e).score = cv (R.push bd m) := by
          by_cases hrt : (f (R.push bd m) e).score < ⊤
          · exact hk2 hup hrt
          · have htop : (f (R.push bd m) e).score = ⊤ :=
              top_le_iff.mp (not_lt.mp hrt)
            exact le_antisymm (le_top.trans_eq (top_le_iff.mp (htop ▸ hk3 htop.ge)).symm)
              (le_top.trans_eq htop.symm)
        rw [he2, if_pos hup]
        by_cases hcut : (⊤ : Score) ≤ (f (R.push bd m) e).score
        · rw [if_pos hcut]
          refine Or.inr ⟨0, Nat.succ_pos ms.length, rfl, hveq.symm, hup, ?_⟩
          intro j hj hj0
          exact absurd hj0 (Nat.not_lt_zero j)
        · rw [if_neg hcut]
          have he2lt : (f (R.push bd m) e).score < ⊤ := not_le.mp hcut
          rcases ih bd (f (R.push bd m) e).score (some m)
              (n + (f (R.push bd m) e).nodes) (k + (f (R.push bd m) e).prunes) he2lt with
            ⟨hs, hm⟩ | ⟨i, hi, h1, h2, h3, h4⟩
          · refine Or.inr ⟨0, Nat.succ_pos ms.length, hm, ?_, ?_, ?_⟩
            · rw [hs]
              exact hveq.symm
            · rw [hs]
              exact hup
            · intro j hj hj0
              exact absurd hj0 (Nat.not_lt_zero j)
          · refine Or.inr ⟨i + 1, Nat.succ_lt_succ hi, h1, h2, lt_trans hup h3, ?_⟩
            intro j hj hji
            cases j with
            | zero =>
                exact lt_of_le_of_lt hveq.ge h3
            | succ j2 =>
                exact h4 j2 (Nat.lt_of_succ_lt_succ hj) (Nat.lt_of_succ_lt_succ hji)
      · -- no improvement: dominated child, state unchanged
        have hre : (f (R.push bd m) e).score ≤ e := not_lt.mp hup
        have hvle : cv (R.push bd m) ≤ e := le_trans (hk1 hre) hre
        rw [max_eq_left hre, if_neg hup]
        rw [if_neg (not_le.mpr he)]
        rcases ih bd e bm (n + (f (R.push bd m) e).nodes)
            (k + (f (R.push bd m) e).prunes) he with
          ⟨hs, hm⟩ | ⟨i, hi, h1, h2, h3, h4⟩
        · exact Or.inl ⟨hs, hm⟩
        · refine Or.inr ⟨i + 1, Nat.succ_lt_succ hi, h1, h2, h3, ?_⟩
          intro j hj hji
          cases j with
          | zero => exact lt_of_le_of_lt hvle h3
          | succ j2 =>
              exact h4 j2 (Nat.lt_of_succ_lt_succ hj) (Nat.lt_of_succ_lt_succ hji)

/-- Best-move tracking of the minimizing loop under the full window
(alpha = bottom), dual to `maxLoop_first`. -/
theorem minLoop_first {B M : Type} (R : Rules B M) (f : B → Score → SR M)
    (cv : B → Score)
    (hf : ∀ (b2 : B) (β2 : Score), ⊥ < β2 → KM3 (f b2 β2).score (cv b2) ⊥ β2) :
    ∀ (ms : List M) (bd : B) (e : Score) (bm : Option M) (n k : Nat), ⊥ < e →
      ((minLoop R f ⊥ ms bd e bm e n k).score = e ∧
       (minLoop R f ⊥ ms bd e bm e n k).move = bm) ∨
      (∃ i, ∃ hi : i < ms.length,
        (minLoop R f ⊥ ms bd e bm e n k).move = some (ms.get ⟨i, hi⟩) ∧
        cv (R.push bd (ms.get ⟨i, hi⟩)) = (minLoop R f ⊥ ms bd e bm e n k).score ∧
        (minLoop R f ⊥ ms bd e bm e n k).score < e ∧
        ∀ (j : Nat) (hj : j < ms.length), j < i →
          (minLoop R f ⊥ ms bd e bm e n k).score < cv (R.push bd (ms.get ⟨j, hj⟩))) := by
  intro ms
  induction ms with
  | nil =>
      intro bd e bm n k _
      exact Or.inl ⟨rfl, rfl⟩
  | cons m ms ih =>
      intro bd e bm n k he
      rw [minLoop_cons]
      obtain ⟨hk1, hk2, hk3⟩ := hf (R.push bd m) e he
      by_cases hup : (f (R.push bd m) e).score < e
      · -- strict improvement: the move is recorded
        have he2 : min e (f (R.push bd m) e).score = (f (R.push bd m) e).score :=
          min_eq_right hup.le
        have hveq : (f (R.push bd m) e).score = cv (R.push bd m) := by
          by_cases hrb : (⊥ : Score) < (f (R.push bd m) e).score
          · exact hk2 hrb hup
          · have hbot : (f (R.push bd m) e).score = ⊥ :=
              le_bot_iff.mp (not_lt.mp hrb)
            exact hbot.trans (le_bot_iff.mp (hbot ▸ hk1 hbot.le)).symm
        rw [he2, if_pos hup]
        by_cases hcut : (f (R.push bd m) e).score ≤ (⊥ : Score)
        · rw [if_pos hcut]
          refine Or.inr ⟨0, Nat.succ_pos ms.length, rfl, hveq.symm, hup, ?_⟩
          intro j hj hj0
          exact absurd hj0 (Nat.not_lt_zero j)
        · rw [if_neg hcut]
          have he2lt : (⊥ : Score) < (f (R.push bd m) e).score := not_le.mp hcut
          rcases ih bd (f (R.push bd m) e).score (some m)
              (n + (f (R.push bd m) e).nodes) (k + (f (R.push bd m) e).prunes) he2lt with
            ⟨hs, hm⟩ | ⟨i, hi, h1, h2, h3, h4⟩
          · refine Or.inr ⟨0, Nat.succ_pos ms.length, hm, ?_, ?_, ?_⟩
            · rw [hs]
              exact hveq.symm
            · rw [hs]
              exact hup
            · intro j hj hj0
              exact absurd hj0 (Nat.not_lt_zero j)
          · refine Or.inr ⟨i + 1, Nat.succ_lt_succ hi, h1, h2, lt_trans h3 hup, ?_⟩
            intro j hj hji
            cases j with
            | zero =>
                exact lt_of_lt_of_le h3 hveq.le
            | succ j2 =>
                exact h4 j2 (Nat.lt_of_succ_lt_succ hj) (Nat.lt_of_succ_lt_succ hji)
      · -- no improvement: dominating child, state unchanged
        have hre : e ≤ (f (R.push bd m) e).score := not_lt.mp hup
        have hvge : e ≤ cv (R.push bd m) := le_trans hre (hk3 hre)
        rw [min_eq_left hre, if_neg hup]
        rw [if_neg (not_le.mpr he)]
        rcases ih bd e bm (n + (f (R.push bd m) e).nodes)
            (k + (f (R.push bd m) e).prunes) he with
          ⟨hs, hm⟩ | ⟨i, hi, h1, h2, h3, h4⟩
        · exact Or.inl ⟨hs, hm⟩
        · refine Or.inr ⟨i + 1, Nat.succ_lt_succ hi, h1, h2, h3, ?_⟩
          intro j hj hji
          cases j with
          | zero => exact lt_of_lt_of_le h3 hvge
          | succ j2 =>
              exact h4 j2 (Nat.lt_of_succ_lt_succ hj) (Nat.lt_of_succ_lt_succ hji)

/-! ## Finiteness and move-presence machinery -/

theorem finScore_bot_lt (q : Rat) : (⊥ : Score) < finScore q :=
  WithBot.bot_lt_coe _

theorem finScore_lt_top (q : Rat) : finScore q < ⊤ :=
  WithBot.coe_lt_coe.mpr (WithTop.coe_lt_top q)

/-- If every child result is below top and the running best starts below
top, the maximizing loop's score stays below top. -/
theorem maxLoop_lt_top {B M : Type} (R : Rules B M) (f : B → Score → SR M) (β : Score)
    (hf : ∀ (b2 : B) (a2 : Score), (f b2 a2).score < ⊤) :
    ∀ (ms : List M) (bd : B) (e : Score) (bm : Option M) (α : Score) (n k : Nat),
      e < ⊤ → (maxLoop R f β ms bd e bm α n k).score < ⊤ := by
  intro ms
  induction ms with
  | nil => intro bd e bm α n k he; exact he
  | cons m ms ih =>
      intro bd e bm α n k he
      rw [maxLoop_cons]
      split
      · exact max_lt he (hf _ _)
      · exact ih bd _ _ _ _ _ (max_lt he (hf _ _))

/-- If every child result is above bottom, the maximizing loop's score ends
above bottom whenever the list is nonempty or the start is above bottom. -/
theorem maxLoop_bot_lt {B M : Type} (R : Rules B M) (f : B → Score → SR M) (β : Score)
    (hf : ∀ (b2 : B) (a2 : Score), ⊥ < (f b2 a2).score) :
    ∀ (ms : List M) (bd : B) (e : Score) (bm : Option M) (α : Score) (n k : Nat),
      (ms ≠ [] ∨ ⊥ < e) → ⊥ < (maxLoop R f β ms bd e bm α n k).score := by
  intro ms
  induction ms with
  | nil =>
      intro bd e bm α n k h
      exact h.resolve_left (fun h2 => h2 rfl)
  | cons m ms ih =>
      intro bd e bm α n k _
      rw [maxLoop_cons]
      split
      · exact lt_of_lt_of_le (hf _ _) (le_max_right _ _)
      · exact ih bd _ _ _ _ _ (Or.inr (lt_of_lt_of_le (hf _ _) (le_max_right _ _)))

/-- Dual of `maxLoop_lt_top`. -/
theorem minLoop_bot_lt {B M : Type} (R : Rules B M) (f : B → Score → SR M) (α : Score)
    (hf : ∀ (b2 : B) (b3 : Score), ⊥ < (f b2 b3).score) :
    ∀ (ms : List M) (bd : B) (e : Score) (bm : Option M) (β : Score) (n k : Nat),
      ⊥ < e → ⊥ < (minLoop R f α ms bd e bm β n k).score := by
  intro ms
  induction ms with
  | nil => intro bd e bm β n k he; exact he
  | cons m ms ih =>
      intro bd e bm β n k he
      rw [minLoop_cons]
      split
      · exact lt_min he (hf _ _)
      · exact ih bd _ _ _ _ _ (lt_min he (hf _ _))

/-- Dual of `maxLoop_bot_lt`. -/
theorem minLoop_lt_top {B M : Type} (R : Rules B M) (f : B → Score → SR M) (α : Score)
    (hf : ∀ (b2 : B) (b3 : Score), (f b2 b3).score < ⊤) :
    ∀ (ms : List M) (bd : B) (e : Score) (bm : Option M) (β : Score) (n k : Nat),
      (ms ≠ [] ∨ e < ⊤) → (minLoop R f α ms bd e bm β n k).score < ⊤ := by
  intro ms
  induction ms with
  | nil =>
      intro bd e bm β n k h
      exact h.resolve_left (fun h2 => h2 rfl)
  | cons m ms ih =>
      intro bd e bm β n k _
      rw [minLoop_cons]
      split
      · exact lt_of_le_of_lt (min_le_right _ _) (hf _ _)
      · exact ih bd _ _ _ _ _ (Or.inr (lt_of_le_of_lt (min_le_right _ _) (hf _ _)))

/-- If the rules engine reports game over whenever no legal move exists (as
real chess does: no legal moves means checkmate or stalemate), every search
result is a finite score, strictly between the two infinities. -/
theorem minimax_finite {B M : Type} (R : Rules B M)
    (law : ∀ b2 : B, R.legalMoves b2 = [] → R.isGameOver b2 = true) :
    ∀ (d : Nat) (bd : B) (α β : Score) (maxP : Bool),
      ⊥ < (minimax R d bd α β maxP).score ∧ (minimax R d bd α β maxP).score < ⊤ := by
  intro d
  induction d with
  | zero =>
      intro bd α β maxP
      exact ⟨finScore_bot_lt _, finScore_lt_top _⟩
  | succ d ih =>
      intro bd α β maxP
      by_cases hover : R.isGameOver bd = true
      · simp only [minimax, hover, if_true]
        exact ⟨finScore_bot_lt _, finScore_lt_top _⟩
      · have hne : get_ordered_moves R bd ≠ [] := by
          intro hnil
          have hlen : (R.legalMoves bd).length = 0 := by
            have := List.length_insertionSort
              (fun m1 m2 => move_priority R bd m2 ≤ move_priority R bd m1) (R.legalMoves bd)
            rw [← this]
            simp [get_ordered_moves] at hnil
            simp [hnil]
          exact hover (law bd (List.eq_nil_of_length_eq_zero hlen))
        cases maxP with
        | true =>
            simp only [minimax, hover, Bool.false_eq_true, reduceIte, if_true]
            constructor
            · exact maxLoop_bot_lt R _ β (fun b2 a2 => (ih b2 a2 β false).1)
                (get_ordered_moves R bd) bd ⊥ none α 0 0 (Or.inl hne)
            · exact maxLoop_lt_top R _ β (fun b2 a2 => (ih b2 a2 β false).2)
                (get_ordered_moves R bd) bd ⊥ none α 0 0 bot_lt_top
        | false =>
            simp only [minimax, hover, Bool.false_eq_true, reduceIte, if_true]
            constructor
            · exact minLoop_bot_lt R _ α (fun b2 b3 => (ih b2 α b3 true).1)
                (get_ordered_moves R bd) bd ⊤ none β 0 0 bot_lt_top
            · exact minLoop_lt_top R _ α (fun b2 b3 => (ih b2 α b3 true).2)
                (get_ordered_moves R bd) bd ⊤ none β 0 0 (Or.inl hne)

/-- Once the maximizing loop holds some best move, it keeps holding one. -/
theorem maxLoop_move_isSome {B M : Type} (R : Rules B M) (f : B → Score → SR M)
    (β : Score) :
    ∀ (ms : List M) (bd : B) (e : Score) (bm : Option M) (α : Score) (n k : Nat),
      bm.isSome = true → ((maxLoop R f β ms bd e bm α n k).move).isSome = true := by
  intro ms
  induction ms with
  | nil => intro bd e bm α n k h; exact h
  | cons m ms ih =>
      intro bd e bm α n k h
      rw [maxLoop_cons]
      split
      · split
        · rfl
        · exact h
      · refine ih bd _ _ _ _ _ ?_
        split
        · rfl
        · exact h

/-- Once the minimizing loop holds some best move, it keeps holding one. -/
theorem minLoop_move_isSome {B M : Type} (R : Rules B M) (f : B → Score → SR M)
    (α : Score) :
    ∀ (ms : List M) (bd : B) (e : Score) (bm : Option M) (β : Score) (n k : Nat),
      bm.isSome = true → ((minLoop R f α ms bd e bm β n k).move).isSome = true := by
  intro ms
  induction ms with
  | nil => intro bd e bm β n k h; exact h
  | cons m ms ih =>
      intro bd e bm β n k h
      rw [minLoop_cons]
      split
      · split
        · rfl
        · exact h
      · refine ih bd _ _ _ _ _ ?_
        split
        · rfl
        · exact h

/-- A non-game-over position has a nonempty ordered move list, given that
the rules engine reports game over whenever no legal move exists. -/
theorem get_ordered_moves_ne_nil {B M : Type} (R : Rules B M) (bd : B)
    (law : ∀ b2 : B, R.legalMoves b2 = [] → R.isGameOver b2 = true)
    (hover : R.isGameOver bd = false) : get_ordered_moves R bd ≠ [] := by
  intro hnil
  have hlen : (R.legalMoves bd).length = 0 := by
    have h2 := List.length_insertionSort
      (fun m1 m2 => move_priority R bd m2 ≤ move_priority R bd m1) (R.legalMoves bd)
    rw [← h2]
    simp [get_ordered_moves] at hnil
    simp [hnil]
  have h3 := law bd (List.eq_nil_of_length_eq_zero hlen)
  rw [h3] at hover
  simp at hover

/-- Every `minimax` call evaluates at least one node. -/
theorem minimax_nodes_pos {B M : Type} (R : Rules B M) :
    ∀ (d : Nat) (bd : B) (α β : Score) (maxP : Bool), 1 ≤ (minimax R d bd α β maxP).nodes := by
  intro d bd α β maxP
  cases d with
  | zero => exact le_refl 1
  | succ d =>
      simp only [minimax]
      split
      · exact le_refl 1
      · split <;> simp

/-- With the full window above (beta = top) and all child results finite,
the maximizing loop never cuts off, so it visits every move, each costing
at least one node. -/
theorem maxLoop_nodes_all {B M : Type} (R : Rules B M) (f : B → Score → SR M)
    (hf1 : ∀ (b2 : B) (a2 : Score), (f b2 a2).score < ⊤)
    (hf2 : ∀ (b2 : B) (a2 : Score), 1 ≤ (f b2 a2).nodes) :
    ∀ (ms : List M) (bd : B) (e : Score) (bm : Option M) (α : Score) (n k : Nat),
      α < ⊤ → n + ms.length ≤ (maxLoop R f ⊤ ms bd e bm α n k).nodes := by
  intro ms
  induction ms with
  | nil => intro bd e bm α n k _; simp [maxLoop]
  | cons m ms ih =>
      intro bd e bm α n k hα
      rw [maxLoop_cons]
      rw [if_neg (not_le.mpr (max_lt hα (hf1 _ _)))]
      have h2 := ih bd (max e (f (R.push bd m) α).score)
        (if e < (f (R.push bd m) α).score then some m else bm)
        (max α (f (R.push bd m) α).score)
        (n + (f (R.push bd m) α).nodes) (k + (f (R.push bd m) α).prunes)
        (max_lt hα (hf1 _ _))
      have h3 := hf2 (R.push bd m) α
      simp only [List.length_cons]
      omega

/-- As `maxLoop_nodes_all`, but when every child costs exactly one node
(depth-1 search): the loop visits exactly the whole move list. -/
theorem maxLoop_nodes_exact {B M : Type} (R : Rules B M) (f : B → Score → SR M)
    (hf1 : ∀ (b2 : B) (a2 : Score), (f b2 a2).score < ⊤)
    (hfn : ∀ (b2 : B) (a2 : Score), (f b2 a2).nodes = 1) :
    ∀ (ms : List M) (bd : B) (e : Score) (bm : Option M) (α : Score) (n k : Nat),
      α < ⊤ → (maxLoop R f ⊤ ms bd e bm α n k).nodes = n + ms.length := by
  intro ms
  induction ms with
  | nil => intro bd e bm α n k _; simp [maxLoop]
  | cons m ms ih =>
      intro bd e bm α n k hα
      rw [maxLoop_cons]
      rw [if_neg (not_le.mpr (max_lt hα (hf1 _ _)))]
      rw [ih bd _ _ _ _ _ (max_lt hα (hf1 _ _))]
      rw [hfn (R.push bd m) α]
      simp only [List.length_cons]
      omega

/-- Dual of `maxLoop_nodes_all` for the minimizing loop. -/
theorem minLoop_nodes_all {B M : Type} (R : Rules B M) (f : B → Score → SR M)
    (hf1 : ∀ (b2 : B) (b3 : Score), ⊥ < (f b2 b3).score)
    (hf2 : ∀ (b2 : B) (b3 : Score), 1 ≤ (f b2 b3).nodes) :
    ∀ (ms : List M) (bd : B) (e : Score) (bm : Option M) (β : Score) (n k : Nat),
      ⊥ < β → n + ms.length ≤ (minLoop R f ⊥ ms bd e bm β n k).nodes := by
  intro ms
  induction ms with
  | nil => intro bd e bm β n k _; simp [minLoop]
  | cons m ms ih =>
      intro bd e bm β n k hβ
      rw [minLoop_cons]
      rw [if_neg (not_le.mpr (lt_min hβ (hf1 _ _)))]
      have h2 := ih bd (min e (f (R.push bd m) β).score)
        (if (f (R.push bd m) β).score < e then some m else bm)
        (min β (f (R.push bd m) β).score)
        (n + (f (R.push bd m) β).nodes) (k + (f (R.push bd m) β).prunes)
        (lt_min hβ (hf1 _ _))
      have h3 := hf2 (R.push bd m) β
      simp only [List.length_cons]
      omega

/-- Dual of `maxLoop_nodes_exact` for the minimizing loop. -/
theorem minLoop_nodes_exact {B M : Type} (R : Rules B M) (f : B → Score → SR M)
    (hf1 : ∀ (b2 : B) (b3 : Score), ⊥ < (f b2 b3).score)
    (hfn : ∀ (b2 : B) (b3 : Score), (f b2 b3).nodes = 1) :
    ∀ (ms : List M) (bd : B) (e : Score) (bm : Option M) (β : Score) (n k : Nat),
      ⊥ < β → (minLoop R f ⊥ ms bd e bm β n k).nodes = n + ms.length := by
  intro ms
  induction ms with
  | nil => intro bd e bm β n k _; simp [minLoop]
  | cons m ms ih =>
      intro bd e bm β n k hβ
      rw [minLoop_cons]
      rw [if_neg (not_le.mpr (lt_min hβ (hf1 _ _)))]
      rw [ih bd _ _ _ _ _ (lt_min hβ (hf1 _ _))]
      rw [hfn (R.push bd m) β]
      simp only [List.length_cons]
      omega

/-! ## Theorems -/

/-- Claim C1: for every position, depth and maximizing flag, the score
returned by the alpha-beta search with the full initial window equals the
score of the full unpruned minimax search over the same tree and the same
move ordering from `get_ordered_moves`; pruning never changes the returned
score. -/
theorem minimax_pruning_equals_plain {B M : Type} (R : Rules B M) (d : Nat) (bd : B)
    (maxP : Bool) :
    (minimax R d bd ⊥ ⊤ maxP).score = plainMinimax R d bd maxP := by
  obtain ⟨k1, k2, k3⟩ := minimax_km R d bd ⊥ ⊤ maxP bot_lt_top
  by_cases h : (minimax R d bd ⊥ ⊤ maxP).score ≤ ⊥
  · have h0 : (minimax R d bd ⊥ ⊤ maxP).score = ⊥ := le_bot_iff.mp h
    have hv := k1 h
    rw [h0] at hv ⊢
    exact (le_bot_iff.mp hv).symm
  · by_cases h2 : ⊤ ≤ (minimax R d bd ⊥ ⊤ maxP).score
    · have h0 : (minimax R d bd ⊥ ⊤ maxP).score = ⊤ := top_le_iff.mp h2
      have hv := k3 h2
      rw [h0] at hv ⊢
      exact (top_le_iff.mp hv).symm
    · exact k2 (not_le.mp h) (not_le.mp h2)

/-- Claim C7: the search updates its best move only on strict improvement,
so the move returned by a full-window search is the earliest entry of
`get_ordered_moves` attaining the best score: its unpruned value equals the
returned score and every strictly earlier entry's unpruned value is
strictly worse (below for the maximizer, above for the minimizer); in
particular among root moves of equal value the first encountered is
returned. -/
theorem minimax_returns_first_best {B M : Type} (R : Rules B M) (d : Nat) (bd : B)
    (maxP : Bool) (m : M)
    (h : (minimax R (d+1) bd ⊥ ⊤ maxP).move = some m) :
    ∃ i, ∃ hi : i < (get_ordered_moves R bd).length,
      (get_ordered_moves R bd).get ⟨i, hi⟩ = m ∧
      plainMinimax R d (R.push bd ((get_ordered_moves R bd).get ⟨i, hi⟩)) (!maxP) =
        (minimax R (d+1) bd ⊥ ⊤ maxP).score ∧
      ∀ (j : Nat) (hj : j < (get_ordered_moves R bd).length), j < i →
        (if maxP then
          plainMinimax R d (R.push bd ((get_ordered_moves R bd).get ⟨j, hj⟩)) (!maxP) <
            (minimax R (d+1) bd ⊥ ⊤ maxP).score
        else
          (minimax R (d+1) bd ⊥ ⊤ maxP).score <
            plainMinimax R d (R.push bd ((get_ordered_moves R bd).get ⟨j, hj⟩)) (!maxP)) := by
  by_cases hover : R.isGameOver bd = true
  · simp [minimax, hover] at h
  · rw [Bool.not_eq_true] at hover
    cases maxP with
    | true =>
        simp only [minimax, hover, Bool.false_eq_true, reduceIte, Bool.not_true,
          if_true] at h ⊢
        rcases maxLoop_first R (fun b2 a2 => minimax R d b2 a2 ⊤ false)
            (fun b2 => plainMinimax R d b2 false)
            (fun b2 α2 h2 => minimax_km R d b2 α2 ⊤ false h2)
            (get_ordered_moves R bd) bd ⊥ none 0 0 bot_lt_top with
          ⟨_, hbm⟩ | ⟨i, hi, h1, h2, _, h4⟩
        · rw [hbm] at h
          exact absurd h (by simp)
        · refine ⟨i, hi, ?_, h2, ?_⟩
          · rw [h1] at h
            exact Option.some.inj h
          · intro j hj hji
            exact h4 j hj hji
    | false =>
        simp only [minimax, hover, Bool.false_eq_true, reduceIte, Bool.not_false,
          if_true] at h ⊢
        rcases minLoop_first R (fun b2 b3 => minimax R d b2 ⊥ b3 true)
            (fun b2 => plainMinimax R d b2 true)
            (fun b2 β2 h2 => minimax_km R d b2 ⊥ β2 true h2)
            (get_ordered_moves R bd) bd ⊤ none 0 0 bot_lt_top with
          ⟨_, hbm⟩ | ⟨i, hi, h1, h2, _, h4⟩
        · rw [hbm] at h
          exact absurd h (by simp)
        · refine ⟨i, hi, ?_, h2, ?_⟩
          · rw [h1] at h
            exact Option.some.inj h
          · intro j hj hji
            exact h4 j hj hji

/-- Counterexample to C9: on the concrete tree, the top-level search
evaluates 13 nodes at depth 2 but only 5 at depth 3, because the deeper
search's first reply already forces the beta cutoff that the shallower
search reaches only after ten children — so nodes evaluated are not
monotone in depth. -/
theorem nodes_not_monotone_cex :
    (2 : Nat) ≤ 3 ∧
    (minimax cRules 2 bRoot ⊥ ⊤ true).nodes = 13 ∧
    (minimax cRules 3 bRoot ⊥ ⊤ true).nodes = 5 ∧
    (minimax cRules 3 bRoot ⊥ ⊤ true).nodes < (minimax cRules 2 bRoot ⊥ ⊤ true).nodes := by
  refine ⟨by omega, ?_, ?_, ?_⟩ <;> set_option maxRecDepth 10000 in decide

/-- Claim C9 as amended: the node count is always at least 1 (the depth-0
count), and a search of depth d ≥ 1 evaluates at least as many nodes as the
depth-1 search (the root children are never pruned under the full window);
but for 2 ≤ d ≤ d' monotonicity can fail, since pruning may cut a deeper
search short earlier. -/
theorem nodes_lower_bounds {B M : Type} (R : Rules B M)
    (law : ∀ b2 : B, R.legalMoves b2 = [] → R.isGameOver b2 = true)
    (bd : B) (maxP : Bool) :
    (∀ d : Nat, 1 ≤ (minimax R d bd ⊥ ⊤ maxP).nodes) ∧
    (∀ d2 : Nat, 1 ≤ d2 →
      (minimax R 1 bd ⊥ ⊤ maxP).nodes ≤ (minimax R d2 bd ⊥ ⊤ maxP).nodes) := by
  constructor
  · intro d
    exact minimax_nodes_pos R d bd ⊥ ⊤ maxP
  · intro d2 hd2
    obtain ⟨e, rfl⟩ : ∃ e, d2 = e + 1 := ⟨d2 - 1, by omega⟩
    rw [show (1 : Nat) = 0 + 1 from rfl]
    by_cases hover : R.isGameOver bd = true
    · simp [minimax, hover]
    · cases maxP with
      | true =>
          simp only [minimax, hover, Bool.false_eq_true, reduceIte, if_true]
          have h1 := maxLoop_nodes_exact R
            (fun b2 _ => (⟨finScore (evaluate_board R b2), none, 1, 0⟩ : SR M))
            (fun b2 a2 => finScore_lt_top _) (fun b2 a2 => rfl)
            (get_ordered_moves R bd) bd ⊥ none ⊥ 0 0 bot_lt_top
          have h2 := maxLoop_nodes_all R (fun b2 a2 => minimax R e b2 a2 ⊤ false)
            (fun b2 a2 => (minimax_finite R law e b2 a2 ⊤ false).2)
            (fun b2 a2 => minimax_nodes_pos R e b2 a2 ⊤ false)
            (get_ordered_moves R bd) bd ⊥ none ⊥ 0 0 bot_lt_top
          rw [h1]
          exact Nat.add_le_add_right h2 1
      | false =>
          simp only [minimax, hover, Bool.false_eq_true, reduceIte, if_true]
          have h1 := minLoop_nodes_exact R
            (fun b2 _ => (⟨finScore (evaluate_board R b2), none, 1, 0⟩ : SR M))
            (fun b2 b3 => finScore_bot_lt _) (fun b2 b3 => rfl)
            (get_ordered_moves R bd) bd ⊤ none ⊤ 0 0 bot_lt_top
          have h2 := minLoop_nodes_all R (fun b2 b3 => minimax R e b2 ⊥ b3 true)
            (fun b2 b3 => (minimax_finite R law e b2 ⊥ b3 true).1)
            (fun b2 b3 => minimax_nodes_pos R e b2 ⊥ b3 true)
            (get_ordered_moves R bd) bd ⊤ none ⊤ 0 0 bot_lt_top
          rw [h1]
          exact Nat.add_le_add_right h2 1

/-- Witness for C9: the amended bounds evaluated on the concrete tree at
depths 1 and 2. -/
theorem nodes_lower_bounds_witness :
    (1 ≤ (minimax cRules 2 bRoot ⊥ ⊤ true).nodes) ∧
    ((minimax cRules 1 bRoot ⊥ ⊤ true).nodes ≤ (minimax cRules 2 bRoot ⊥ ⊤ true).nodes) :=
  ⟨(nodes_lower_bounds cRules cRules_no_moves_game_over bRoot true).1 2,
   (nodes_lower_bounds cRules cRules_no_moves_game_over bRoot true).2 2 (by omega)⟩

/-- Counterexample to C3: at depth 0 the search returns a move of none even
on a position that is not terminal and has legal moves, so "none only when
no legal move exists at the root" fails for d = 0. -/
theorem minimax_depth0_none_cex :
    (minimax cRules 0 bRoot ⊥ ⊤ true).move = none ∧
    cRules.legalMoves bRoot ≠ [] ∧ cRules.isGameOver bRoot = false :=
  ⟨rfl, by decide, rfl⟩

/-- Claim C3 as amended: the search (being total by construction) never
fails, and for every depth d ≥ 1 — rather than d ≥ 0, since a depth-0
search always returns none — and either polarity, it returns a move of
none exactly when the rules engine reports the root game over (given the
collaborator's guarantee that a position without legal moves is game
over). -/
theorem minimax_none_iff_game_over {B M : Type} (R : Rules B M)
    (law : ∀ b2 : B, R.legalMoves b2 = [] → R.isGameOver b2 = true)
    (d : Nat) (bd : B) (maxP : Bool) (hd : 1 ≤ d) :
    ((minimax R d bd ⊥ ⊤ maxP).move = none ↔ R.isGameOver bd = true) := by
  obtain ⟨d2, rfl⟩ : ∃ d2, d = d2 + 1 := ⟨d - 1, by omega⟩
  constructor
  · intro h
    by_contra hover
    rw [Bool.not_eq_true] at hover
    have hne := get_ordered_moves_ne_nil R bd law hover
    obtain ⟨m, rest, hms⟩ := List.exists_cons_of_ne_nil hne
    cases maxP with
    | true =>
        simp only [minimax, hover, Bool.false_eq_true, reduceIte, if_true] at h
        rw [hms, maxLoop_cons] at h
        have hup : (⊥ : Score) < (minimax R d2 (R.push bd m) ⊥ ⊤ false).score :=
          (minimax_finite R law d2 (R.push bd m) ⊥ ⊤ false).1
        rw [if_pos hup] at h
        revert h
        split
        · intro h
          simp at h
        · intro h
          have h2 := maxLoop_move_isSome R (fun b2 a2 => minimax R d2 b2 a2 ⊤ false) ⊤
            rest bd (max ⊥ (minimax R d2 (R.push bd m) ⊥ ⊤ false).score) (some m)
            (max ⊥ (minimax R d2 (R.push bd m) ⊥ ⊤ false).score)
            (0 + (minimax R d2 (R.push bd m) ⊥ ⊤ false).nodes)
            (0 + (minimax R d2 (R.push bd m) ⊥ ⊤ false).prunes) rfl
          rw [h] at h2
          simp at h2
    | false =>
        simp only [minimax, hover, Bool.false_eq_true, reduceIte, if_true] at h
        rw [hms, minLoop_cons] at h
        have hup : (minimax R d2 (R.push bd m) ⊥ ⊤ true).score < ⊤ :=
          (minimax_finite R law d2 (R.push bd m) ⊥ ⊤ true).2
        rw [if_pos hup] at h
        revert h
        split
        · intro h
          simp at h
        · intro h
          have h2 := minLoop_move_isSome R (fun b2 b3 => minimax R d2 b2 ⊥ b3 true) ⊥
            rest bd (min ⊤ (minimax R d2 (R.push bd m) ⊥ ⊤ true).score) (some m)
            (min ⊤ (minimax R d2 (R.push bd m) ⊥ ⊤ true).score)
            (0 + (minimax R d2 (R.push bd m) ⊥ ⊤ true).nodes)
            (0 + (minimax R d2 (R.push bd m) ⊥ ⊤ true).prunes) rfl
          rw [h] at h2
          simp at h2
  · intro hov
    simp [minimax, hov]

/-- Witness for C3: the amended equivalence at depth 2 on the concrete root
position (which is not game over, and whose search returns a move). -/
theorem minimax_none_iff_game_over_witness :
    ((minimax cRules 2 bRoot ⊥ ⊤ true).move = none ↔ cRules.isGameOver bRoot = true) :=
  minimax_none_iff_game_over cRules cRules_no_moves_game_over 2 bRoot true (by decide)

/-- Witness for C7: at depth 2 on the concrete tree the search returns the
first root move (to the drawn position worth 0); its unpruned value is the
returned score and there is no earlier move. -/
theorem minimax_returns_first_best_witness :
    ∃ i, ∃ hi : i < (get_ordered_moves cRules bRoot).length,
      (get_ordered_moves cRules bRoot).get ⟨i, hi⟩ = mv 0 ∧
      plainMinimax cRules 1
          (cRules.push bRoot ((get_ordered_moves cRules bRoot).get ⟨i, hi⟩)) false =
        (minimax cRules 2 bRoot ⊥ ⊤ true).score ∧
      ∀ (j : Nat) (hj : j < (get_ordered_moves cRules bRoot).length), j < i →
        (if true then
          plainMinimax cRules 1
              (cRules.push bRoot ((get_ordered_moves cRules bRoot).get ⟨j, hj⟩)) false <
            (minimax cRules 2 bRoot ⊥ ⊤ true).score
        else
          (minimax cRules 2 bRoot ⊥ ⊤ true).score <
            plainMinimax cRules 1
              (cRules.push bRoot ((get_ordered_moves cRules bRoot).get ⟨j, hj⟩)) false) :=
  minimax_returns_first_best cRules 1 bRoot true (mv 0)
    (by set_option maxRecDepth 10000 in decide)

/-- Claim C8: given the collaborator's stack discipline for push/pop and
its side-to-move flag semantics, both `get_ordered_moves` and
`evaluate_board` leave the board in exactly its pre-call state: every
transient push is popped, and the toggled side-to-move flag is restored. -/
theorem orderer_evaluator_restore {B M : Type} (R : Rules B M)
    (hpp : ∀ b m, R.pop (R.push b m) = b)
    (hst : ∀ b c1 c2, R.setTurn (R.setTurn b c1) c2 = R.setTurn b c2)
    (hself : ∀ b, R.setTurn b (R.turn b) = b) (bd : B) :
    (getOrderedMovesSt R bd).2 = bd ∧ (evaluateSt R bd).2 = bd := by
  constructor
  · have h : (threadMap (fun b m => movePrioritySt R b m) bd (R.legalMoves bd)).2 = bd :=
      threadMap_snd_id _ (fun b m => hpp b m) bd _
    simpa [getOrderedMovesSt] using h
  · by_cases hcm : R.isCheckmate bd = true
    · simp [evaluateSt, hcm]
    · by_cases hdr : (R.isStalemate bd || R.isInsufficientMaterial bd) = true
      · simp [evaluateSt, hcm, hdr]
      · by_cases ht : R.turn bd = true
        · have : R.setTurn (R.setTurn bd false) true = bd := by
            rw [hst]
            rw [← ht]
            exact hself bd
          simp [evaluateSt, hcm, hdr, ht, this]
        · have ht2 : R.turn bd = false := by simpa using ht
          have : R.setTurn (R.setTurn bd true) false = bd := by
            rw [hst]
            rw [← ht2]
            exact hself bd
          simp [evaluateSt, hcm, hdr, ht2, this]

/-- Witness for C8: the concrete rules engine satisfies the three
collaborator laws, and both calls restore the concrete root board. -/
theorem orderer_evaluator_restore_witness :
    (getOrderedMovesSt cRules bRoot).2 = bRoot ∧ (evaluateSt cRules bRoot).2 = bRoot :=
  orderer_evaluator_restore cRules cRules_pop_push cRules_setTurn_setTurn
    cRules_setTurn_self bRoot

/-- Claim C2: whenever the rules engine reports checkmate, `evaluate_board`
returns -CHECKMATE_SCORE if it is white's turn and +CHECKMATE_SCORE
otherwise; whenever the position is stalemate or has insufficient material
(and is not checkmate) it returns 0. -/
theorem evaluate_board_terminal_scores {B M : Type} (R : Rules B M) (bd : B) :
    (R.isCheckmate bd = true →
      evaluate_board R bd = (if R.turn bd then -CHECKMATE_SCORE else CHECKMATE_SCORE)) ∧
    (R.isCheckmate bd = false →
      (R.isStalemate bd = true ∨ R.isInsufficientMaterial bd = true) →
      evaluate_board R bd = 0) := by
  constructor
  · intro h
    simp [evaluate_board, h]
  · intro h h2
    rcases h2 with h2 | h2 <;> simp [evaluate_board, h, h2, DRAW_SCORE]

/-- Witness for C2: a concrete checkmate (black to move) and a concrete
stalemate, scored as the claim states. -/
theorem evaluate_board_terminal_scores_witness :
    evaluate_board cRules bCheckmate =
      (if cRules.turn bCheckmate then -CHECKMATE_SCORE else CHECKMATE_SCORE) ∧
    evaluate_board cRules bStalemate = 0 :=
  ⟨(evaluate_board_terminal_scores cRules bCheckmate).1 rfl,
   (evaluate_board_terminal_scores cRules bStalemate).2 rfl (Or.inl rfl)⟩

/-- Counterexample to C4: construction does not clamp — `ChessEngine(15)`
stores a depth of 15, outside [1,10]. -/
theorem engine_init_unclamped_cex :
    (ChessEngine.init 15).depth = 15 ∧ ¬((ChessEngine.init 15).depth ≤ 10) := by
  constructor
  · rfl
  · decide

/-- Claim C4 as amended: `set_depth` always stores the clamp of its argument
into [1,10] (15 is stored as 10, 0 as 1), and default construction stores
depth 3, inside the range; but construction with an explicit out-of-range
depth stores it unclamped. -/
theorem set_depth_clamps (e : ChessEngine) (n : Int) :
    1 ≤ (e.set_depth n).depth ∧ (e.set_depth n).depth ≤ 10 ∧
    (e.set_depth n).depth = max 1 (min n 10) ∧
    (e.set_depth 15).depth = 10 ∧ (e.set_depth 0).depth = 1 ∧
    (ChessEngine.init 3).depth = 3 := by
  refine ⟨?_, ?_, rfl, rfl, rfl, rfl⟩ <;> simp [ChessEngine.set_depth]

/-- Counterexample to C5: a position with one queen and no minor pieces is
not classified as endgame by `is_endgame`, although the claim ("at least one
queen and at most 2 total minor pieces") requires it to be. -/
theorem is_endgame_one_queen_cex :
    countPieceSq cRules bOneQueen .queen true + countPieceSq cRules bOneQueen .queen false = 1 ∧
    countPieceSq cRules bOneQueen .knight true + countPieceSq cRules bOneQueen .bishop true +
      countPieceSq cRules bOneQueen .knight false + countPieceSq cRules bOneQueen .bishop false = 0 ∧
    is_endgame cRules bOneQueen = false := by
  refine ⟨by decide, by decide, by decide⟩

/-- Claim C5 as amended: `is_endgame` returns true exactly when no queens
remain, or when exactly two queens remain and both sides together have at
most 2 minor pieces. -/
theorem is_endgame_iff {B M : Type} (R : Rules B M) (bd : B) :
    is_endgame R bd = true ↔
      (countPieceSq R bd .queen true + countPieceSq R bd .queen false = 0 ∨
       (countPieceSq R bd .queen true + countPieceSq R bd .queen false = 2 ∧
        countPieceSq R bd .knight true + countPieceSq R bd .bishop true +
          countPieceSq R bd .knight false + countPieceSq R bd .bishop false ≤ 2)) := by
  simp [is_endgame]

/-- Counterexample to C6: an en-passant capture. The rules engine classifies
the move as a capture, but its destination square is empty, so the code's
capture bonus is 0 rather than the claimed 10 x victim - attacker = 9 for a
pawn taking a pawn. -/
theorem capture_bonus_en_passant_cex :
    cRules.isCapture bEnPassant mEnPassant = true ∧
    captureBonus cRules bEnPassant mEnPassant = 0 ∧
    (0 : Int) ≠ 10 * get_piece_value .pawn - get_piece_value .pawn := by
  refine ⟨rfl, by decide, by decide⟩

/-- Claim C6 as amended: for every capture whose destination and origin
squares are occupied, the capture bonus inside `move_priority` is
10 x victim - attacker over the table {pawn 1, knight 3, bishop 3, rook 5,
queen 9, king 100}; for non-captures (and for captures of an empty
destination square, i.e. en passant) the capture bonus is zero. -/
theorem capture_bonus_characterization {B M : Type} (R : Rules B M) (bd : B) (m : M) :
    (R.isCapture bd m = true → ∀ vp ap : Piece,
      R.pieceAt bd (R.toSq m) = some vp → R.pieceAt bd (R.fromSq m) = some ap →
      captureBonus R bd m =
        10 * get_piece_value vp.pieceType - get_piece_value ap.pieceType) ∧
    (R.isCapture bd m = true → R.pieceAt bd (R.toSq m) = none →
      captureBonus R bd m = 0) ∧
    (R.isCapture bd m = false → captureBonus R bd m = 0) ∧
    move_priority R bd m =
      captureBonus R bd m + checkBonus R bd m + promoBonus R m + centerBonus R m := by
  refine ⟨?_, ?_, ?_, rfl⟩
  · intro h vp ap hv ha
    simp [captureBonus, h, hv, ha]
  · intro h hv
    simp [captureBonus, h, hv]
  · intro h
    simp [captureBonus, h]

/-- Witness for C6: the knight-takes-queen capture receives bonus
10 x 9 - 3, and the quiet move receives bonus 0. -/
theorem capture_bonus_characterization_witness :
    captureBonus cRules bCapture mCapture =
      10 * get_piece_value .queen - get_piece_value .knight ∧
    captureBonus cRules bCapture (mv 1) = 0 :=
  ⟨(capture_bonus_characterization cRules bCapture mCapture).1 rfl
      ⟨.queen, false⟩ ⟨.knight, true⟩ rfl rfl,
   (capture_bonus_characterization cRules bCapture (mv 1)).2.2.1 rfl⟩

/-- Claim C10: a position drawn by the seventyfive-move rule or fivefold
repetition stops the search (the terminal test is the full game-over
query), yet is scored by the full heuristic rather than the 0 draw score,
since `evaluate_board` special-cases only checkmate, stalemate and
insufficient material. -/
theorem seventyfive_fivefold_full_heuristic {B M : Type} (R : Rules B M) (bd : B)
    (d : Nat) (α β : Score) (maxP : Bool)
    (hdraw : R.isSeventyfiveMoves bd = true ∨ R.isFivefoldRepetition bd = true)
    (hcm : R.isCheckmate bd = false) (hsm : R.isStalemate bd = false)
    (him : R.isInsufficientMaterial bd = false) :
    minimax R d bd α β maxP = ⟨finScore (heuristicScore R bd), none, 1, 0⟩ := by
  have hover : R.isGameOver bd = true := by
    rcases hdraw with h | h <;> simp [Rules.isGameOver, h]
  have heval : evaluate_board R bd = heuristicScore R bd := by
    simp [evaluate_board, hcm, hsm, him]
  cases d with
  | zero => simp [minimax, heval]
  | succ d => simp [minimax, hover, heval]

/-- Witness for C10: a concrete fivefold-repetition position holding one
white rook is search-terminal at depth 2 but scored by the full heuristic
(worth 502, not the 0 draw score). -/
theorem seventyfive_fivefold_full_heuristic_witness :
    minimax cRules 2 bFivefold ⊥ ⊤ true = ⟨finScore (heuristicScore cRules bFivefold), none, 1, 0⟩ :=
  seventyfive_fivefold_full_heuristic cRules bFivefold 2 ⊥ ⊤ true (Or.inr rfl) rfl rfl rfl

end ChessAI
